import Mathlib

/-!
Verification development for the market-data ingestion and rolling-cache core
of the trading platform repository (`incremental_save_all.py`, `data_provider.py`).

The embedding models:
* one OHLCV+open-interest record (`Rec`), keyed by `(symbol, time)`;
* the durable store as a partial map from keys to records, with the
  `ON CONFLICT (symbol,time) DO UPDATE ... oi = COALESCE(EXCLUDED.oi, table.oi)`
  upsert of `insert_records_batch` / `insert_records_batch_copy`;
* the batch loop of `run_once` (record accumulation under a cooperative
  shutdown flag, and the end-of-batch commit check);
* the path selection of `insert_records_batch` (bulk COPY vs multi-row upsert);
* the adaptive API delay of `_safe_request` / `adjust_api_delay_down`
  (floats modelled as exact rationals);
* `calculate_diff_limit`;
* the backfill loop of `process_symbol_backfill` with its stall detector and
  iteration cap;
* the `_RollingCache` table operations of `data_provider.py`
  (pandas DataFrames modelled as lists of records; `sort_index` as a stable
  insertion sort on the `(symbol, time)` key; `~index.duplicated(keep="last")`
  as keep-last deduplication; `groupby(level=0).tail(window)` as per-symbol
  window clipping), together with `_fetch_since_per_symbol` (including its
  `_SYM_RE` symbol filter), `_fetch_tail_per_symbol`, `warm`, `refresh`,
  and the parquet snapshot round trip (file I/O modelled as identity on the
  stored table).
-/

/-- One market-data record: `(symbol, time, open, high, low, close, volume, oi)`
as built by `make_records`. `oi` (open interest) is nullable. Prices are
modelled as exact rationals, timestamps as integers (epoch units). -/
structure Rec where
  symbol : String
  time : ℤ
  opn : ℚ
  high : ℚ
  low : ℚ
  close : ℚ
  volume : ℚ
  oi : Option ℚ
deriving DecidableEq, Repr

/-- Identity key of a record, the `(symbol, time)` primary key. -/
abbrev Key := String × ℤ

def keyOf (r : Rec) : Key := (r.symbol, r.time)

/-- A record with its open-interest column replaced. -/
def setOi (r : Rec) (o : Option ℚ) : Rec :=
  { symbol := r.symbol, time := r.time, opn := r.opn, high := r.high,
    low := r.low, close := r.close, volume := r.volume, oi := o }

/-- The durable table, as a partial map from `(symbol,time)` keys to records. -/
def Store := Key → Option Rec

def emptyStore : Store := fun _ => none

/-- SQL `COALESCE` on the nullable open-interest column. -/
def coalesce (a b : Option ℚ) : Option ℚ :=
  match a with
  | some x => some x
  | none => b

/-- Effect of upserting a single row: `INSERT ... ON CONFLICT (symbol,time)
DO UPDATE SET open = EXCLUDED.open, ..., oi = COALESCE(EXCLUDED.oi, table.oi)`
(shared by `insert_records_batch` and `insert_records_batch_copy`). -/
def upsertOne (s : Store) (r : Rec) : Store :=
  fun k =>
    if k = keyOf r then
      some (setOi r (coalesce r.oi ((s (keyOf r)).bind Rec.oi)))
    else s k

/-- Upserting a batch of records, row by row in batch order. -/
def upsertBatch (s : Store) : List Rec → Store
  | [] => s
  | r :: rs => upsertBatch (upsertOne s r) rs

/-- Which code path `insert_records_batch` takes for a batch. -/
inductive PersistPath where
  | skipEmpty
  | bulkCopy
  | multiRow
deriving DecidableEq, Repr

/-- Path selection of `insert_records_batch`: empty batches return early,
batches with more than 1000 records go through `insert_records_batch_copy`
(COPY into a temp table), the rest through the multi-row
`execute_values` upsert. -/
def insertRecordsBatchPath (all_records : List Rec) : PersistPath :=
  if all_records = [] then .skipEmpty
  else if 1000 < all_records.length then .bulkCopy
  else .multiRow

/-! ### Worker-pool batch loop (`run_once`)

`run_once` collects per-symbol task results into `batch_records`, checking the
shutdown flag before handling each completed future, and then persists with
`if batch_records and not shutdown_event.is_set(): insert_records_batch(...);
conn.commit()`. The monotone shutdown flag is modelled by the tick `shutdownAt`
at which it becomes set: the flag reads true at tick `t` iff `shutdownAt ≤ t`,
and one tick elapses per future handled. -/

/-- The future-collection loop of one batch in `run_once`: for each completed
future, first check the shutdown flag (break if set), otherwise extend
`batch_records` with the future's records. Returns the accumulated records,
the tick after the loop, and whether the loop broke early on the flag. -/
def collectBatch (shutdownAt : ℕ) : List (List Rec) → ℕ → List Rec × ℕ × Bool
  | [], t => ([], t, false)
  | f :: fs, t =>
    if shutdownAt ≤ t then ([], t, true)
    else
      let rest := collectBatch shutdownAt fs (t + 1)
      (f ++ rest.1, rest.2.1, rest.2.2)

/-- One batch of `run_once` against the durable store: collect the futures'
records, then commit them only `if batch_records and not
shutdown_event.is_set()`. -/
def runBatchCommit (shutdownAt : ℕ) (futures : List (List Rec)) (store : Store) : Store :=
  let out := collectBatch shutdownAt futures 0
  if out.1 ≠ [] ∧ ¬ shutdownAt ≤ out.2.1 then upsertBatch store out.1 else store

/-! ### Adaptive API delay (`_safe_request`, `adjust_api_delay_down`) -/

/-- The configured base delay `API_DELAY = 0.2`. -/
def API_DELAY : ℚ := 1 / 5

/-- Error classes distinguished by `_safe_request`'s handler: rate-limit
signals (code 10006 / "too many visits" / "rate limit"), the specific
missing-header `KeyError`, and connection-class errors (timeout, connection
error). -/
inductive ApiErrClass where
  | rateLimit
  | missingHeaderKey
  | connection
deriving DecidableEq, Repr

/-- Delay update performed by `_safe_request`'s exception handler:
rate-limit-class errors set `current_api_delay = min(current_api_delay * 1.5, 1.0)`;
connection-class errors sleep but leave the delay unchanged. -/
def stepDelayOnError (e : ApiErrClass) (d : ℚ) : ℚ :=
  match e with
  | .rateLimit => min (d * (3 / 2)) 1
  | .missingHeaderKey => min (d * (3 / 2)) 1
  | .connection => d

/-- `adjust_api_delay_down`, called after each successful fetch:
`current_api_delay = max(current_api_delay * 0.99, API_DELAY)`. -/
def adjust_api_delay_down (d : ℚ) : ℚ := max (d * (99 / 100)) API_DELAY

/-! ### Dynamic page size (`calculate_diff_limit`) -/

def DIFF_LIMIT_MIN : ℤ := 50
def DIFF_LIMIT_MAX : ℤ := 1000
def DIFF_LIMIT_DEFAULT : ℤ := 200

/-- Python `int()` conversion: truncation toward zero. -/
def intTrunc (q : ℚ) : ℤ := if q < 0 then q.ceil else q.floor

/-- `calculate_diff_limit`: with no floor, the default page size; otherwise the
number of bars covering `current_time - target_floor`, inflated by 20% and
clamped to `[DIFF_LIMIT_MIN, DIFF_LIMIT_MAX]`. Times are in seconds. -/
def calculate_diff_limit (target_floor : Option ℚ) (current_time : ℚ) (tf_minutes : ℕ) : ℤ :=
  match target_floor with
  | none => DIFF_LIMIT_DEFAULT
  | some floor =>
    let time_diff := current_time - floor
    let required_bars := intTrunc (time_diff / (tf_minutes * 60 : ℚ))
    let required_limit := intTrunc ((required_bars : ℚ) * (6 / 5))
    max DIFF_LIMIT_MIN (min required_limit DIFF_LIMIT_MAX)

/-! ### Concrete sample records used in counterexamples and witnesses -/

def recA : Rec := ⟨"BTCUSDT", 1, 1, 1, 1, 1, 1, none⟩
def recB : Rec := ⟨"ETHUSDT", 2, 1, 1, 1, 1, 1, none⟩
def recOld : Rec := ⟨"BTCUSDT", 1, 2, 3, 1, 2, 5, some 7⟩
def recNew : Rec := ⟨"BTCUSDT", 1, 4, 6, 2, 5, 9, none⟩
def recBad : Rec := ⟨"bad", 1, 1, 1, 1, 1, 1, none⟩

/-! ## Upsert idempotence machinery (claim C3) -/

/-- Effect of the upsert at one fixed key, given the sub-batch of rows carrying
that key: each row overwrites OHLCV/volume and coalesces `oi`. -/
def applyAt (v : Option Rec) : List Rec → Option Rec
  | [] => v
  | r :: rs => applyAt (some (setOi r (coalesce r.oi (v.bind Rec.oi)))) rs

/-- The coalesce chain of a sub-batch, threaded left to right. -/
def oiAgg (rs : List Rec) (o : Option ℚ) : Option ℚ :=
  match rs with
  | [] => o
  | r :: rs => oiAgg rs (coalesce r.oi o)

theorem coalesce_assoc (a b c : Option ℚ) :
    coalesce (coalesce a b) c = coalesce a (coalesce b c) := by
  cases a <;> simp [coalesce]

theorem coalesce_self (a b : Option ℚ) :
    coalesce a (coalesce a b) = coalesce a b := by
  cases a <;> simp [coalesce]

theorem oiAgg_out (rs : List Rec) (o : Option ℚ) :
    oiAgg rs o = coalesce (oiAgg rs none) o := by
  induction rs generalizing o with
  | nil => simp [oiAgg, coalesce]
  | cons r rs ih =>
    simp only [oiAgg]
    rw [ih (coalesce r.oi o), ih (coalesce r.oi none), coalesce_assoc, coalesce_assoc]
    simp [coalesce]

theorem applyAt_closed (rs : List Rec) (h : rs ≠ []) (v : Option Rec) :
    applyAt v rs = some (setOi (rs.getLast h) (oiAgg rs (v.bind Rec.oi))) := by
  induction rs generalizing v with
  | nil => exact absurd rfl h
  | cons r rs ih =>
    cases rs with
    | nil => simp [applyAt, oiAgg, List.getLast, setOi]
    | cons r' rs' =>
      rw [applyAt, ih (by simp)]
      simp [setOi, oiAgg, List.getLast_cons]

theorem lookup_upsertBatch (rs : List Rec) : ∀ (s : Store) (k : Key),
    upsertBatch s rs k = applyAt (s k) (rs.filter (fun r => keyOf r == k)) := by
  induction rs with
  | nil => intro s k; rfl
  | cons r rs ih =>
    intro s k
    rw [upsertBatch, ih]
    by_cases hk : keyOf r = k
    · subst hk
      have hone : upsertOne s r (keyOf r) =
          some (setOi r (coalesce r.oi ((s (keyOf r)).bind Rec.oi))) := by
        unfold upsertOne; rw [if_pos rfl]
      rw [hone]
      have hf : List.filter (fun x => keyOf x == keyOf r) (r :: rs) =
          r :: List.filter (fun x => keyOf x == keyOf r) rs := by
        simp [List.filter_cons]
      rw [hf, applyAt]
    · have hone : upsertOne s r k = s k := by
        unfold upsertOne
        exact if_neg (fun he => hk he.symm)
      rw [hone]
      have hb : (keyOf r == k) = false := by
        simp [hk]
      have hf : List.filter (fun x => keyOf x == k) (r :: rs) =
          List.filter (fun x => keyOf x == k) rs := by
        simp [List.filter_cons, hb]
      rw [hf]

theorem applyAt_idem (f : List Rec) (v : Option Rec) :
    applyAt (applyAt v f) f = applyAt v f := by
  rcases eq_or_ne f [] with h | h
  · subst h; rfl
  · rw [applyAt_closed f h v,
      applyAt_closed f h (some (setOi (f.getLast h) (oiAgg f (v.bind Rec.oi))))]
    show some (setOi (f.getLast h) (oiAgg f (oiAgg f (v.bind Rec.oi)))) =
      some (setOi (f.getLast h) (oiAgg f (v.bind Rec.oi)))
    have hagg : oiAgg f (oiAgg f (v.bind Rec.oi)) = oiAgg f (v.bind Rec.oi) := by
      rw [oiAgg_out f (oiAgg f (v.bind Rec.oi)), oiAgg_out f (v.bind Rec.oi), coalesce_self]
    rw [hagg]

theorem upsertBatch_idem (s : Store) (rs : List Rec) :
    upsertBatch (upsertBatch s rs) rs = upsertBatch s rs := by
  funext k
  rw [lookup_upsertBatch rs (upsertBatch s rs) k, lookup_upsertBatch rs s k, applyAt_idem]

/-! ## Claim theorems: C3, C2, C7, C8, C1 -/

/-- C3: For every store state and every batch, upserting the batch twice yields
the same store contents as upserting it once, field for field; a row carrying a
null `oi` never erases a stored non-null `oi` (the stored value is kept), while
a non-null incoming `oi` always overwrites. -/
theorem upsert_idempotent_and_oi_coalesce (s : Store) (rs : List Rec) (r b : Rec) :
    upsertBatch (upsertBatch s rs) rs = upsertBatch s rs
    ∧ (s (keyOf r) = some b → r.oi = none →
        upsertOne s r (keyOf r) = some (setOi r b.oi))
    ∧ (∀ x : ℚ, r.oi = some x →
        upsertOne s r (keyOf r) = some (setOi r (some x))) := by
  refine ⟨upsertBatch_idem s rs, ?_, ?_⟩
  · intro hb hnone
    unfold upsertOne
    rw [if_pos rfl, hb, hnone]
    rfl
  · intro x hx
    unfold upsertOne
    rw [if_pos rfl, hx]
    cases hv : s (keyOf r) <;> rfl

/-- Witness for C3's hypothesis-bearing conjuncts at a concrete store. -/
theorem upsert_idempotent_and_oi_coalesce_witness :
    upsertOne (upsertOne emptyStore recOld) recNew (keyOf recNew) =
      some (setOi recNew (some 7)) := by
  have hs : upsertOne emptyStore recOld (keyOf recNew) = some recOld := by rfl
  have h := (upsert_idempotent_and_oi_coalesce
    (upsertOne emptyStore recOld) [] recNew recOld).2.1 hs rfl
  exact h

/-- Counterexample to C2 as stated: a non-empty batch of exactly 1000 records
(at the claimed threshold) does not take the bulk-copy path. -/
theorem batch_of_1000_not_bulkCopy :
    insertRecordsBatchPath (List.replicate 1000 recA) = .multiRow
    ∧ (List.replicate 1000 recA : List Rec) ≠ []
    ∧ (List.replicate 1000 recA : List Rec).length = 1000 := by
  have hne : (List.replicate 1000 recA : List Rec) ≠ [] := by
    simp only [ne_eq, List.replicate_eq_nil_iff]
    norm_num
  have hlen : (List.replicate 1000 recA : List Rec).length = 1000 :=
    List.length_replicate 1000 recA
  refine ⟨?_, hne, hlen⟩
  unfold insertRecordsBatchPath
  rw [if_neg hne, if_neg (by rw [hlen]; norm_num)]

/-- C2 (amended): for every non-empty batch, the bulk-copy staging path is
chosen exactly when the batch has more than 1000 records, and the multi-row
parameterized upsert exactly when it has at most 1000 records. -/
theorem insert_path_threshold (rs : List Rec) (h : rs ≠ []) :
    (insertRecordsBatchPath rs = .bulkCopy ↔ 1000 < rs.length)
    ∧ (insertRecordsBatchPath rs = .multiRow ↔ rs.length ≤ 1000) := by
  unfold insertRecordsBatchPath
  rw [if_neg h]
  by_cases h1 : 1000 < rs.length
  · rw [if_pos h1]
    constructor
    · constructor
      · intro _; exact h1
      · intro _; rfl
    · constructor
      · intro hc; cases hc
      · intro hle; omega
  · rw [if_neg h1]
    constructor
    · constructor
      · intro hc; cases hc
      · intro hlt; omega
    · constructor
      · intro _; omega
      · intro _; rfl

/-- Witness for the amended C2 at a singleton batch. -/
theorem insert_path_threshold_witness :
    insertRecordsBatchPath [recA] = .multiRow :=
  (insert_path_threshold [recA] (by simp)).2.mpr (by simp)

/-- Capped multiplicative growth composes: bumping an already-capped delay is
the same as capping the doubly-bumped delay. -/
theorem min_one_bump (x : ℚ) : min (min x 1 * (3 / 2)) 1 = min (x * (3 / 2)) 1 := by
  rcases le_total x 1 with h | h
  · rw [min_eq_left h]
  · rw [min_eq_right h]
    have hx : (1 : ℚ) ≤ x * (3 / 2) := by nlinarith
    rw [min_eq_right hx, min_eq_right (by norm_num : (1 : ℚ) ≤ 1 * (3 / 2))]

/-- C7: starting from any delay between the base delay and 1.0, each rate-limit
signal maps the delay `d` to `min(d * 1.5, 1.0)`, so three consecutive signals
compound to `min(d * 1.5³, 1.0)`; each success maps it to
`max(d * 0.99, API_DELAY)`, which never drops below the configured floor; and a
connection-class error leaves the delay unchanged. -/
theorem api_delay_dynamics (d : ℚ) (hlo : API_DELAY ≤ d) (hhi : d ≤ 1) :
    stepDelayOnError .rateLimit d = min (d * (3 / 2)) 1
    ∧ stepDelayOnError .rateLimit (stepDelayOnError .rateLimit
        (stepDelayOnError .rateLimit d)) = min (d * (27 / 8)) 1
    ∧ adjust_api_delay_down d = max (d * (99 / 100)) API_DELAY
    ∧ API_DELAY ≤ adjust_api_delay_down d
    ∧ stepDelayOnError .connection d = d := by
  refine ⟨rfl, ?_, rfl, le_max_right _ _, rfl⟩
  show min (min (min (d * (3 / 2)) 1 * (3 / 2)) 1 * (3 / 2)) 1 = min (d * (27 / 8)) 1
  rw [min_one_bump (d * (3 / 2)), min_one_bump (d * (3 / 2) * (3 / 2))]
  have harith : d * (3 / 2) * (3 / 2) * (3 / 2) = d * (27 / 8) := by ring
  rw [harith]

/-- Witness for C7 at the concrete starting delay 1/2. -/
theorem api_delay_dynamics_witness :
    stepDelayOnError .rateLimit (stepDelayOnError .rateLimit
        (stepDelayOnError .rateLimit (1 / 2))) = min ((1 / 2 : ℚ) * (27 / 8)) 1 :=
  (api_delay_dynamics (1 / 2) (by norm_num [API_DELAY]) (by norm_num)).2.1

/-- C8: for every floor time, current time and positive bucket size, the
computed page size lies in `[50, 1000]`; with no floor time the default 200 is
returned. -/
theorem calculate_diff_limit_clamped (f ct : ℚ) (tf : ℕ) (htf : 0 < tf) :
    (50 ≤ calculate_diff_limit (some f) ct tf
      ∧ calculate_diff_limit (some f) ct tf ≤ 1000)
    ∧ calculate_diff_limit none ct tf = 200 := by
  refine ⟨⟨le_max_left _ _, ?_⟩, rfl⟩
  have h : min (intTrunc ((intTrunc ((ct - f) / (tf * 60 : ℚ)) : ℚ) * (6 / 5)))
      DIFF_LIMIT_MAX ≤ 1000 := min_le_right _ _
  exact max_le (by norm_num [DIFF_LIMIT_MIN]) h

/-- Witness for C8 at floor 0, current time 1, timeframe 5 minutes. -/
theorem calculate_diff_limit_clamped_witness :
    50 ≤ calculate_diff_limit (some 0) 1 5 ∧ calculate_diff_limit (some 0) 1 5 ≤ 1000 :=
  (calculate_diff_limit_clamped 0 1 5 (by norm_num)).1

/-- In `collectBatch`, breaking early on the shutdown flag means the flag is
still set (the flag is monotone) at the final tick, where the commit check
happens. -/
theorem collectBatch_broke_flag (shutdownAt : ℕ) :
    ∀ (fs : List (List Rec)) (t : ℕ),
      (collectBatch shutdownAt fs t).2.2 = true →
      shutdownAt ≤ (collectBatch shutdownAt fs t).2.1 := by
  intro fs
  induction fs with
  | nil => intro t h; cases h
  | cons f fs ih =>
    intro t h
    by_cases hs : shutdownAt ≤ t
    · rw [collectBatch, if_pos hs]
      exact hs
    · rw [collectBatch, if_neg hs] at h ⊢
      exact ih (t + 1) h

/-- Counterexample to C1 as stated: with the shutdown flag raised at tick 1,
the batch loop accumulates the first future's record and then observes the
flag mid-batch (before the second future), yet the accumulated record is NOT
persisted: the store still has nothing at its key. -/
theorem shutdown_mid_batch_discards :
    collectBatch 1 [[recA], [recB]] 0 = ([recA], 1, true)
    ∧ runBatchCommit 1 [[recA], [recB]] emptyStore (keyOf recA) = none := by
  exact ⟨rfl, rfl⟩

/-- C1 (amended): if the shutdown flag is observed mid-batch (the collection
loop breaks early), the records accumulated for that batch are NOT persisted:
the commit is skipped because `run_once` writes only `if batch_records and not
shutdown_event.is_set()`, and the flag is monotone. -/
theorem shutdown_mid_batch_skips_commit (shutdownAt : ℕ) (futures : List (List Rec))
    (store : Store) (h : (collectBatch shutdownAt futures 0).2.2 = true) :
    runBatchCommit shutdownAt futures store = store := by
  unfold runBatchCommit
  rw [if_neg]
  intro hc
  exact hc.2 (collectBatch_broke_flag shutdownAt futures 0 h)

/-- Witness for the amended C1 at a concrete mid-batch shutdown. -/
theorem shutdown_mid_batch_skips_commit_witness :
    runBatchCommit 1 [[recA], [recB]] emptyStore = emptyStore :=
  shutdown_mid_batch_skips_commit 1 [[recA], [recB]] emptyStore rfl

/-! ## Backfill loop (`process_symbol_backfill`, claim C6) -/

/-- Why the backfill loop of `process_symbol_backfill` stopped. -/
inductive StopReason where
  | emptyPage
  | floorReached
  | stalled
  | capReached
deriving DecidableEq, Repr

structure BackfillResult where
  records : List Rec
  loopCount : ℕ
  reason : StopReason
deriving DecidableEq, Repr

/-- The `while last is None or last > target_floor` guard, negated: stop when a
cursor exists and has reached the floor. -/
def stopAtFloor (last : Option ℤ) (floor : ℤ) : Bool :=
  match last with
  | some l => decide (l ≤ floor)
  | none => false

/-- The stall detector: `previous_min_time is not None and current_min_time >=
previous_min_time`. -/
def stallCheck (prevMin : Option ℤ) (m : ℤ) : Bool :=
  match prevMin with
  | some pm => decide (pm ≤ m)
  | none => false

/-- Minimum timestamp of a non-empty page (`k_df.index.min()`). -/
def pageMin (p : Rec) (ps : List Rec) : ℤ :=
  (ps.map Rec.time).foldl min p.time

/-- The backfill loop of `process_symbol_backfill`. `fetchPage` is the Bar
Fetcher (already normalized to records), keyed by the `end_ms` cursor; `fuel`
is the number of loop iterations still allowed by the `max_loops = 1000` cap
(`fuel = 1000 - loop_count` on entry); `cnt` is `loop_count` so far. The loop:
check the while-guard, increment `loop_count` (breaking past the cap), fetch a
page ending one bucket before the cursor, stop on an empty page, accumulate the
records, stop if the page minimum did not strictly decrease (stall), advance
the cursor, and stop once the cursor reaches the floor. -/
def backfillGo (fetchPage : Option ℤ → List Rec) (floor minutes : ℤ) :
    ℕ → Option ℤ → Option ℤ → List Rec → ℕ → BackfillResult
  | 0, last, _, acc, cnt =>
    if stopAtFloor last floor then ⟨acc, cnt, .floorReached⟩
    else ⟨acc, cnt + 1, .capReached⟩
  | fuel + 1, last, prevMin, acc, cnt =>
    if stopAtFloor last floor then ⟨acc, cnt, .floorReached⟩
    else
      match fetchPage (last.map (fun l => l - minutes * 60000)) with
      | [] => ⟨acc, cnt + 1, .emptyPage⟩
      | p :: ps =>
        if stallCheck prevMin (pageMin p ps) then
          ⟨acc ++ (p :: ps), cnt + 1, .stalled⟩
        else if pageMin p ps ≤ floor then
          ⟨acc ++ (p :: ps), cnt + 1, .floorReached⟩
        else
          backfillGo fetchPage floor minutes fuel (some (pageMin p ps))
            (some (pageMin p ps)) (acc ++ (p :: ps)) (cnt + 1)

/-- `process_symbol_backfill` for one symbol: run the backfill loop from the
symbol's last known time with `loop_count = 0` and the 1000-iteration cap. -/
def process_symbol_backfill (fetchPage : Option ℤ → List Rec) (target_floor minutes : ℤ)
    (last_time : Option ℤ) : BackfillResult :=
  backfillGo fetchPage target_floor minutes 1000 last_time none [] 0

/-- A fetcher stub that echoes the identical page forever (same minimum time on
every call). -/
def stubPage : List Rec := [⟨"BTCUSDT", 10, 1, 1, 1, 1, 1, none⟩,
  ⟨"BTCUSDT", 11, 1, 1, 1, 1, 1, none⟩]

def stubFetch : Option ℤ → List Rec := fun _ => stubPage

theorem backfillGo_count_le (f : Option ℤ → List Rec) (fl mn : ℤ) :
    ∀ (fuel : ℕ) (last prevMin : Option ℤ) (acc : List Rec) (cnt : ℕ),
      (backfillGo f fl mn fuel last prevMin acc cnt).loopCount ≤ cnt + fuel + 1 := by
  intro fuel
  induction fuel with
  | zero =>
    intro last prevMin acc cnt
    unfold backfillGo
    split
    · dsimp only; omega
    · dsimp only; omega
  | succ fuel ih =>
    intro last prevMin acc cnt
    unfold backfillGo
    split
    · dsimp only; omega
    · split
      · dsimp only; omega
      · split
        · dsimp only; omega
        · split
          · dsimp only; omega
          · exact le_trans (ih _ _ _ _) (by omega)

/-- C6: the per-symbol backfill loop halts for every fetcher behavior, with the
iteration counter bounded by the cap (at most 1000 full iterations, so
`loop_count ≤ 1001` counting the aborted cap-check entry), the stop cause being
one of: empty page, floor reached, stall detected, or cap reached; and the stub
fetcher that returns an identical page (same minimum time) twice in a row stops
via stall detection on its second iteration. -/
theorem backfill_terminates_and_stall_detected :
    (∀ (fetchPage : Option ℤ → List Rec) (floor minutes : ℤ) (last0 : Option ℤ),
      (process_symbol_backfill fetchPage floor minutes last0).loopCount ≤ 1001)
    ∧ (process_symbol_backfill stubFetch 0 5 none).reason = .stalled
    ∧ (process_symbol_backfill stubFetch 0 5 none).loopCount = 2 := by
  refine ⟨?_, rfl, rfl⟩
  intro fetchPage floor minutes last0
  have h := backfillGo_count_le fetchPage floor minutes 1000 last0 none [] 0
  simpa [process_symbol_backfill] using h

/-! ## Rolling cache (`data_provider.py`)

Pandas tables with a `(symbol, time)` MultiIndex are modelled as lists of
records in row order. `DataFrame.sort_index()` is a stable lexicographic sort
on the key, modelled by `List.insertionSort` under the total preorder `recLE`
(insertion sort is stable). `df[~df.index.duplicated(keep="last")]` is
`dedupKeepLast`. `groupby(level=0, group_keys=False).tail(window)` is
`clipWindow`. -/

/-- Lexicographic comparison of char lists (the order underlying string
comparison for `ORDER BY symbol`), written to be kernel-computable. -/
def strLtB : List Char → List Char → Bool
  | [], [] => false
  | [], _ :: _ => true
  | _ :: _, [] => false
  | a :: as, b :: bs => if a < b then true else if b < a then false else strLtB as bs

def symLt (s t : String) : Prop := strLtB s.data t.data = true

instance : DecidableRel symLt := fun s t => by unfold symLt; infer_instance

/-- Lexicographic order on `(symbol, time)` keys, as used by
`ORDER BY symbol, time` and `sort_index()`. -/
def keyLE (a b : Key) : Prop := symLt a.1 b.1 ∨ (a.1 = b.1 ∧ a.2 ≤ b.2)

instance : DecidableRel keyLE := fun a b => by unfold keyLE; infer_instance

def recLE (a b : Rec) : Prop := keyLE (keyOf a) (keyOf b)

instance : DecidableRel recLE := fun a b => by unfold recLE; infer_instance

theorem strLtB_irrefl : ∀ l : List Char, strLtB l l = false
  | [] => rfl
  | a :: as => by simp [strLtB, lt_irrefl, strLtB_irrefl as]

theorem strLtB_trans : ∀ a b c : List Char,
    strLtB a b = true → strLtB b c = true → strLtB a c = true
  | [], [], _ => fun h _ => by cases h
  | [], _ :: _, [] => fun _ h => by cases h
  | [], _ :: _, _ :: _ => fun _ _ => rfl
  | _ :: _, [], _ => fun h _ => by cases h
  | _ :: _, _ :: _, [] => fun _ h => by cases h
  | a :: as, b :: bs, c :: cs => fun h1 h2 => by
    simp only [strLtB] at h1 h2 ⊢
    by_cases hab : a < b
    · by_cases hbc : b < c
      · rw [if_pos (lt_trans hab hbc)]
      · by_cases hcb : c < b
        · rw [if_neg hbc, if_pos hcb] at h2; cases h2
        · have hbceq : b = c := le_antisymm (not_lt.mp hcb) (not_lt.mp hbc)
          subst hbceq
          rw [if_pos hab]
    · by_cases hba : b < a
      · rw [if_neg hab, if_pos hba] at h1; cases h1
      · have habeq : a = b := le_antisymm (not_lt.mp hba) (not_lt.mp hab)
        subst habeq
        rw [if_neg hab, if_neg hba] at h1
        by_cases hac : a < c
        · rw [if_pos hac]
        · by_cases hca : c < a
          · rw [if_neg hac, if_pos hca] at h2; cases h2
          · rw [if_neg hac, if_neg hca] at h2 ⊢
            exact strLtB_trans as bs cs h1 h2

theorem strLtB_conn : ∀ a b : List Char,
    strLtB a b = false → strLtB b a = false → a = b
  | [], [] => fun _ _ => rfl
  | [], _ :: _ => fun h _ => by cases h
  | _ :: _, [] => fun _ h => by cases h
  | a :: as, b :: bs => fun h1 h2 => by
    simp only [strLtB] at h1 h2
    by_cases hab : a < b
    · rw [if_pos hab] at h1; cases h1
    · by_cases hba : b < a
      · rw [if_pos hba] at h2; cases h2
      · have habeq : a = b := le_antisymm (not_lt.mp hba) (not_lt.mp hab)
        subst habeq
        rw [if_neg hab, if_neg hab] at h1
        rw [if_neg hba, if_neg hba] at h2
        rw [strLtB_conn as bs h1 h2]

theorem symLt_irrefl (s : String) : ¬ symLt s s := by
  simp [symLt, strLtB_irrefl]

theorem symLt_trans {a b c : String} (h1 : symLt a b) (h2 : symLt b c) : symLt a c :=
  strLtB_trans _ _ _ h1 h2

theorem symLt_conn {a b : String} (h1 : ¬ symLt a b) (h2 : ¬ symLt b a) : a = b := by
  have hd : a.data = b.data :=
    strLtB_conn _ _ (Bool.eq_false_iff.mpr h1) (Bool.eq_false_iff.mpr h2)
  cases a; cases b
  exact congrArg String.mk hd

instance : IsTotal Rec recLE where
  total a b := by
    unfold recLE keyLE keyOf
    by_cases hab : symLt a.symbol b.symbol
    · exact Or.inl (Or.inl hab)
    · by_cases hba : symLt b.symbol a.symbol
      · exact Or.inr (Or.inl hba)
      · have he : a.symbol = b.symbol := symLt_conn hab hba
        rcases le_total a.time b.time with ht | ht
        · exact Or.inl (Or.inr ⟨he, ht⟩)
        · exact Or.inr (Or.inr ⟨he.symm, ht⟩)

instance : IsTrans Rec recLE where
  trans a b c hab hbc := by
    unfold recLE keyLE keyOf at *
    rcases hab with h1 | ⟨h1, h1t⟩
    · rcases hbc with h2 | ⟨h2, h2t⟩
      · exact Or.inl (symLt_trans h1 h2)
      · exact Or.inl (by rw [← h2]; exact h1)
    · rcases hbc with h2 | ⟨h2, h2t⟩
      · exact Or.inl (by rw [h1]; exact h2)
      · exact Or.inr ⟨h1.trans h2, le_trans h1t h2t⟩

/-- `DataFrame.sort_index()`: stable sort by the `(symbol, time)` key. -/
def sortIdx (l : List Rec) : List Rec := List.insertionSort recLE l

/-- `df[~df.index.duplicated(keep="last")]`: keep, for each key, only its last
occurrence in row order. -/
def dedupKeepLast : List Rec → List Rec
  | [] => []
  | r :: rs =>
    if rs.any (fun x => keyOf x == keyOf r) then dedupKeepLast rs
    else r :: dedupKeepLast rs

/-- Rows of one symbol, in row order. -/
def filterSym (s : String) (l : List Rec) : List Rec :=
  l.filter (fun r => r.symbol == s)

/-- Rows of one `(symbol, time)` key, in row order. -/
def filterKey (k : Key) (l : List Rec) : List Rec :=
  l.filter (fun r => keyOf r == k)

def countSym (s : String) (l : List Rec) : ℕ := (filterSym s l).length

/-- The last `n` elements of a list (`DataFrame.tail(n)`). -/
def tailN (n : ℕ) (xs : List Rec) : List Rec := xs.drop (xs.length - n)

/-- `_RollingCache._clip_window`: `groupby(level=0, group_keys=False).tail(window)`
keeps, for each symbol, only its last `w` rows in row order. -/
def clipWindow (w : ℕ) : List Rec → List Rec
  | [] => []
  | r :: rs =>
    if countSym r.symbol rs < w then r :: clipWindow w rs else clipWindow w rs

/-- One character of `_SYM_RE = re.compile(r"^[A-Z0-9_]+$")`. -/
def symCharOk (c : Char) : Bool :=
  ('A' ≤ c && c ≤ 'Z') || ('0' ≤ c && c ≤ '9') || c == '_'

/-- `_SYM_RE.match(s)`: non-empty and all characters in `[A-Z0-9_]`. -/
def symOk (s : String) : Bool := !s.isEmpty && s.data.all symCharOk

/-- Maximum of a list of timestamps (`Series.max()`), `none` on empty input. -/
def maxT : List ℤ → Option ℤ
  | [] => none
  | x :: xs => some (xs.foldl max x)

/-- High-water mark: the maximum cached time of one symbol
(`groupby("symbol")["time"].max()`). -/
def hwm (s : String) (l : List Rec) : Option ℤ := maxT ((filterSym s l).map Rec.time)

/-- `last_by_sym`: the per-symbol high-water-mark map taken from the current
cache table. -/
def sinceMap (l : List Rec) : List (String × ℤ) :=
  (l.map Rec.symbol).dedup.filterMap (fun s => (hwm s l).map (fun t => (s, t)))

/-- Whether a stored row is matched by the diff query's
`JOIN m ON m.symbol = t.symbol AND t.time > m.since` for the given value list. -/
def rowMatches (sm : List (String × ℤ)) (r : Rec) : Bool :=
  sm.any (fun p => p.1 == r.symbol && decide (p.2 < r.time))

/-- `_fetch_since_per_symbol`: drop since-map entries whose symbol fails
`_SYM_RE`, select store rows strictly newer than the matching symbol's since
time, order by `(symbol, time)`, and de-duplicate keys keeping the last row.
(The 300-symbol chunking partitions the value list and concatenates the chunk
results before the final sort; it does not change the selected row set.) -/
def fetchSince (store : List Rec) (sm : List (String × ℤ)) : List Rec :=
  dedupKeepLast (sortIdx (store.filter (rowMatches (sm.filter (fun p => symOk p.1)))))

/-- `_fetch_tail_per_symbol`: the last `n` rows per symbol
(`ROW_NUMBER() OVER (PARTITION BY symbol ORDER BY time DESC) <= n`), returned
in `(symbol, time)` order. -/
def fetchTail (store : List Rec) (n : ℕ) : List Rec := clipWindow n (sortIdx store)

/-- `_RollingCache.warm` for one timeframe: fetch the per-symbol tail and store
the window-clipped result. -/
def warmTable (w : ℕ) (store : List Rec) : List Rec := clipWindow w (fetchTail store w)

/-- `_RollingCache.refresh` for one timeframe: warm from scratch when the cache
is empty; otherwise fetch the per-symbol diff since each symbol's high-water
mark, and either re-clip the current table (no new rows) or merge
(`concat`, `sort_index`, drop duplicated keys keeping last, clip). -/
def refreshTable (w : ℕ) (store : List Rec) (current : List Rec) : List Rec :=
  if current = [] then clipWindow w (fetchTail store (max w 2))
  else
    if fetchSince store (sinceMap current) = [] then clipWindow w current
    else clipWindow w (dedupKeepLast (sortIdx (current ++ fetchSince store (sinceMap current))))

/-- `prime_cache_from_snapshot` for one timeframe, after the snapshot file is
read back: `sort_index()` then `_clip_window` then install. The parquet write
of `save_snapshot` and read of `prime_cache_from_snapshot` are modelled as
identity on the table. -/
def primeTable (w : ℕ) (df : List Rec) : List Rec := clipWindow w (sortIdx df)

/-- At most one row per `(symbol, time)` key. -/
def NodupKeys (l : List Rec) : Prop := (l.map keyOf).Nodup

/-- Sorted by the `(symbol, time)` key (every cache table is kept in this
order). -/
def KeySorted (l : List Rec) : Prop := List.Pairwise recLE l

instance (l : List Rec) : Decidable (NodupKeys l) := by
  unfold NodupKeys
  infer_instance

instance (l : List Rec) : Decidable (KeySorted l) := by
  unfold KeySorted
  infer_instance

/-! ### Lemmas about `tailN` -/

theorem tailN_length_le (n : ℕ) (xs : List Rec) : (tailN n xs).length ≤ n := by
  simp only [tailN, List.length_drop]
  omega

theorem tailN_of_length_le {n : ℕ} {xs : List Rec} (h : xs.length ≤ n) : tailN n xs = xs := by
  unfold tailN
  rw [Nat.sub_eq_zero_of_le h, List.drop_zero]

theorem tailN_sublist (n : ℕ) (xs : List Rec) : (tailN n xs).Sublist xs :=
  List.drop_sublist _ _

theorem tailN_cons_keep {n : ℕ} {xs : List Rec} (x : Rec) (h : xs.length < n) :
    tailN n (x :: xs) = x :: xs :=
  tailN_of_length_le (by simp only [List.length_cons]; omega)

theorem tailN_cons_drop {n : ℕ} {xs : List Rec} (x : Rec) (h : n ≤ xs.length) :
    tailN n (x :: xs) = tailN n xs := by
  unfold tailN
  have hc : (x :: xs).length - n = (xs.length - n) + 1 := by
    simp only [List.length_cons]; omega
  rw [hc, List.drop_succ_cons]

theorem tailN_append_of_le {n : ℕ} {ys : List Rec} (xs : List Rec) (h : n ≤ ys.length) :
    tailN n (xs ++ ys) = tailN n ys := by
  unfold tailN
  have hc : (xs ++ ys).length - n = xs.length + (ys.length - n) := by
    simp only [List.length_append]; omega
  rw [hc, List.drop_append]

theorem tailN_ne_nil {n : ℕ} {xs : List Rec} (hn : 1 ≤ n) (hx : xs ≠ []) :
    tailN n xs ≠ [] := by
  have hpos : 0 < xs.length := List.length_pos.mpr hx
  intro h
  have hlen : (tailN n xs).length = xs.length - (xs.length - n) := by
    simp [tailN, List.length_drop]
  rw [h] at hlen
  simp only [List.length_nil] at hlen
  omega

theorem getLast_mem_drop : ∀ (xs : List Rec) (h : xs ≠ []) (k : ℕ), k < xs.length →
    xs.getLast h ∈ xs.drop k := by
  intro xs
  induction xs with
  | nil => intro h; exact absurd rfl h
  | cons x xs ih =>
    intro h k hk
    cases k with
    | zero =>
      rw [List.drop_zero]
      exact List.getLast_mem h
    | succ k =>
      have hxs : xs ≠ [] := by
        intro he
        subst he
        simp at hk
      rw [List.drop_succ_cons, List.getLast_cons hxs]
      exact ih hxs k (by simp only [List.length_cons] at hk; omega)

theorem getLast_mem_tailN {n : ℕ} {xs : List Rec} (hn : 1 ≤ n) (h : xs ≠ []) :
    xs.getLast h ∈ tailN n xs := by
  unfold tailN
  apply getLast_mem_drop
  have hpos : 0 < xs.length := List.length_pos.mpr h
  omega

/-! ### Lemmas about `filterSym`, `clipWindow` -/

theorem filterSym_cons_pos {r : Rec} {s : String} (hs : r.symbol = s) (l : List Rec) :
    filterSym s (r :: l) = r :: filterSym s l := by
  simp [filterSym, List.filter_cons, hs]

theorem filterSym_cons_neg {r : Rec} {s : String} (hs : r.symbol ≠ s) (l : List Rec) :
    filterSym s (r :: l) = filterSym s l := by
  simp [filterSym, List.filter_cons, hs]

theorem mem_filterSym {r : Rec} {s : String} {l : List Rec} :
    r ∈ filterSym s l ↔ r ∈ l ∧ r.symbol = s := by
  simp [filterSym, List.mem_filter]

theorem filterSym_clipWindow (w : ℕ) (s : String) :
    ∀ l : List Rec, filterSym s (clipWindow w l) = tailN w (filterSym s l) := by
  intro l
  induction l with
  | nil => simp [clipWindow, filterSym, tailN]
  | cons r rs ih =>
    by_cases hsym : r.symbol = s
    · have hcnt_eq : countSym r.symbol rs = (filterSym s rs).length := by
        rw [hsym]; rfl
      by_cases hcnt : (filterSym s rs).length < w
      · rw [clipWindow, if_pos (by rw [hcnt_eq]; exact hcnt), filterSym_cons_pos hsym, ih,
          filterSym_cons_pos hsym, tailN_of_length_le (le_of_lt hcnt),
          tailN_cons_keep r hcnt]
      · push_neg at hcnt
        rw [clipWindow, if_neg (by rw [hcnt_eq]; omega), ih, filterSym_cons_pos hsym,
          tailN_cons_drop r hcnt]
    · by_cases hcnt : countSym r.symbol rs < w
      · rw [clipWindow, if_pos hcnt, filterSym_cons_neg hsym, ih, filterSym_cons_neg hsym]
      · rw [clipWindow, if_neg hcnt, ih, filterSym_cons_neg hsym]

theorem clipWindow_sublist (w : ℕ) : ∀ l : List Rec, (clipWindow w l).Sublist l := by
  intro l
  induction l with
  | nil => simp [clipWindow]
  | cons r rs ih =>
    rw [clipWindow]
    split
    · exact ih.cons₂ r
    · exact ih.cons r

theorem countSym_clipWindow_le (w : ℕ) (s : String) (l : List Rec) :
    countSym s (clipWindow w l) ≤ w := by
  unfold countSym
  rw [filterSym_clipWindow]
  exact tailN_length_le w _

/-! ### Lemmas about `dedupKeepLast` -/

theorem dedupKeepLast_sublist : ∀ l : List Rec, (dedupKeepLast l).Sublist l := by
  intro l
  induction l with
  | nil => simp [dedupKeepLast]
  | cons r rs ih =>
    rw [dedupKeepLast]
    split
    · exact ih.cons r
    · exact ih.cons₂ r

theorem mem_of_mem_dedupKeepLast {r : Rec} {l : List Rec} (h : r ∈ dedupKeepLast l) :
    r ∈ l :=
  List.Sublist.mem h (dedupKeepLast_sublist l)

theorem NodupKeys_dedupKeepLast : ∀ l : List Rec, NodupKeys (dedupKeepLast l) := by
  intro l
  induction l with
  | nil => simp [dedupKeepLast, NodupKeys]
  | cons r rs ih =>
    rw [dedupKeepLast]
    split
    · exact ih
    · rename_i hany
      unfold NodupKeys
      rw [List.map_cons, List.nodup_cons]
      refine ⟨?_, ih⟩
      intro hmem
      rcases List.mem_map.mp hmem with ⟨x, hx, hkx⟩
      exact hany (List.any_eq_true.mpr
        ⟨x, mem_of_mem_dedupKeepLast hx, by simp [hkx]⟩)

theorem filterKey_cons_pos {r : Rec} {k : Key} (hk : keyOf r = k) (l : List Rec) :
    filterKey k (r :: l) = r :: filterKey k l := by
  simp [filterKey, List.filter_cons, hk]

theorem filterKey_cons_neg {r : Rec} {k : Key} (hk : keyOf r ≠ k) (l : List Rec) :
    filterKey k (r :: l) = filterKey k l := by
  simp [filterKey, List.filter_cons, hk]

theorem mem_filterKey {r : Rec} {k : Key} {l : List Rec} :
    r ∈ filterKey k l ↔ r ∈ l ∧ keyOf r = k := by
  simp [filterKey, List.mem_filter]

theorem filterKey_dedupKeepLast (k : Key) :
    ∀ l : List Rec, filterKey k (dedupKeepLast l) = tailN 1 (filterKey k l) := by
  intro l
  induction l with
  | nil => rfl
  | cons r rs ih =>
    rw [dedupKeepLast]
    by_cases hk : keyOf r = k
    · split
      · rename_i hany
        rcases List.any_eq_true.mp hany with ⟨x, hxrs, hxk⟩
        have hxkey : keyOf x = k := (beq_iff_eq.mp hxk).trans hk
        have hne : filterKey k rs ≠ [] := by
          intro he
          have hnx := List.filter_eq_nil_iff.mp he x hxrs
          simp [hxkey] at hnx
        have hlen : 1 ≤ (filterKey k rs).length := List.length_pos.mpr hne
        rw [ih, filterKey_cons_pos hk, tailN_cons_drop r hlen]
      · rename_i hany
        have hfnil : filterKey k rs = [] := by
          apply List.filter_eq_nil_iff.mpr
          intro x hx hbx
          apply hany
          refine List.any_eq_true.mpr ⟨x, hx, ?_⟩
          have : keyOf x = k := beq_iff_eq.mp hbx
          simp [this, hk]
        rw [filterKey_cons_pos hk, filterKey_cons_pos hk, ih, hfnil]
        rfl
    · split
      · rw [ih, filterKey_cons_neg hk]
      · rw [filterKey_cons_neg hk, ih, filterKey_cons_neg hk]

theorem filterSym_dedupKeepLast {s : String} :
    ∀ l : List Rec, (List.map keyOf (filterSym s l)).Nodup →
      filterSym s (dedupKeepLast l) = filterSym s l := by
  intro l
  induction l with
  | nil => intro _; rfl
  | cons r rs ih =>
    intro hnd
    rw [dedupKeepLast]
    by_cases hsym : r.symbol = s
    · rw [filterSym_cons_pos hsym] at hnd
      rw [List.map_cons, List.nodup_cons] at hnd
      split
      · rename_i hany
        exfalso
        rcases List.any_eq_true.mp hany with ⟨x, hxrs, hxk⟩
        have hxkey : keyOf x = keyOf r := beq_iff_eq.mp hxk
        have hxsym : x.symbol = s := by
          have hfst : x.symbol = r.symbol := congrArg Prod.fst hxkey
          rw [hfst, hsym]
        exact hnd.1 (List.mem_map.mpr
          ⟨x, mem_filterSym.mpr ⟨hxrs, hxsym⟩, hxkey⟩)
      · rw [filterSym_cons_pos hsym, filterSym_cons_pos hsym, ih hnd.2]
    · rw [filterSym_cons_neg hsym] at hnd
      split
      · rw [ih hnd, filterSym_cons_neg hsym]
      · rw [filterSym_cons_neg hsym, ih hnd, filterSym_cons_neg hsym]

/-! ### Lemmas about `sortIdx` -/

theorem sortIdx_perm (l : List Rec) : (sortIdx l).Perm l := List.perm_insertionSort recLE l

theorem sortIdx_sorted (l : List Rec) : List.Pairwise recLE (sortIdx l) :=
  List.sorted_insertionSort recLE l

theorem mem_sortIdx {r : Rec} {l : List Rec} : r ∈ sortIdx l ↔ r ∈ l :=
  (sortIdx_perm l).mem_iff

theorem filter_orderedInsert_pos (p : Rec → Bool) (x : Rec) (hx : p x = true)
    (hle : ∀ b, p b = true → recLE x b) :
    ∀ L : List Rec, (List.orderedInsert recLE x L).filter p = x :: L.filter p := by
  intro L
  induction L with
  | nil => simp [List.orderedInsert, List.filter_cons, hx]
  | cons b L ih =>
    rw [List.orderedInsert]
    split
    · rw [List.filter_cons, if_pos hx]
    · rename_i hxb
      have hpb : p b = false := by
        cases hpbc : p b
        · rfl
        · exact absurd (hle b hpbc) hxb
      rw [List.filter_cons, if_neg (by simp [hpb]), ih, List.filter_cons,
        if_neg (by simp [hpb])]

theorem filter_orderedInsert_neg (p : Rec → Bool) (x : Rec) (hx : p x = false) :
    ∀ L : List Rec, (List.orderedInsert recLE x L).filter p = L.filter p := by
  intro L
  induction L with
  | nil => simp [List.orderedInsert, List.filter_cons, hx]
  | cons b L ih =>
    rw [List.orderedInsert]
    split
    · rw [List.filter_cons, if_neg (by simp [hx])]
    · by_cases hpb : p b = true
      · rw [List.filter_cons, if_pos hpb, ih, List.filter_cons, if_pos hpb]
      · rw [List.filter_cons, if_neg hpb, ih, List.filter_cons, if_neg hpb]

theorem filter_sortIdx (p : Rec → Bool) (hp : ∀ a b, p a = true → p b = true → recLE a b) :
    ∀ l : List Rec, (sortIdx l).filter p = l.filter p := by
  intro l
  induction l with
  | nil => rfl
  | cons x l ih =>
    show (List.orderedInsert recLE x (List.insertionSort recLE l)).filter p = _
    cases hx : p x
    · rw [filter_orderedInsert_neg p x hx, List.filter_cons, if_neg (by simp [hx])]
      exact ih
    · rw [filter_orderedInsert_pos p x hx (fun b hb => hp x b hx hb), List.filter_cons,
        if_pos hx]
      exact congrArg (List.cons x) ih

theorem filterKey_sortIdx (k : Key) (l : List Rec) :
    filterKey k (sortIdx l) = filterKey k l := by
  unfold filterKey
  apply filter_sortIdx
  intro a b ha hb
  have ha' : keyOf a = k := beq_iff_eq.mp ha
  have hb' : keyOf b = k := beq_iff_eq.mp hb
  unfold recLE
  rw [ha', hb']
  exact Or.inr ⟨rfl, le_refl _⟩

/-! ### Lemmas about `maxT`, `hwm` -/

theorem foldl_max_self : ∀ (ys : List ℤ) (a : ℤ), a ≤ ys.foldl max a := by
  intro ys
  induction ys with
  | nil => intro a; exact le_refl a
  | cons y ys ih => intro a; exact le_trans (le_max_left a y) (ih (max a y))

theorem foldl_max_le_of_mem : ∀ (ys : List ℤ) (a x : ℤ), x ∈ ys → x ≤ ys.foldl max a := by
  intro ys
  induction ys with
  | nil => intro a x hx; cases hx
  | cons y ys ih =>
    intro a x hx
    rcases List.mem_cons.mp hx with h | h
    · subst h
      exact le_trans (le_max_right a x) (foldl_max_self ys (max a x))
    · exact ih (max a y) x h

theorem foldl_max_mem : ∀ (ys : List ℤ) (a : ℤ), ys.foldl max a ∈ a :: ys := by
  intro ys
  induction ys with
  | nil => intro a; simp [List.foldl]
  | cons y ys ih =>
    intro a
    have h := ih (max a y)
    show List.foldl max (max a y) ys ∈ a :: y :: ys
    rcases List.mem_cons.mp h with h | h
    · rcases max_choice a y with hm | hm
      · rw [h, hm]; exact List.mem_cons_self a _
      · rw [h, hm]; exact List.mem_cons.mpr (Or.inr (List.mem_cons_self y ys))
    · exact List.mem_cons.mpr (Or.inr (List.mem_cons.mpr (Or.inr h)))

theorem maxT_mem {xs : List ℤ} {m : ℤ} (h : maxT xs = some m) : m ∈ xs := by
  cases xs with
  | nil => cases h
  | cons x xs =>
    simp only [maxT, Option.some.injEq] at h
    rw [← h]
    exact foldl_max_mem xs x

theorem le_maxT {xs : List ℤ} {x m : ℤ} (hx : x ∈ xs) (h : maxT xs = some m) : x ≤ m := by
  cases xs with
  | nil => cases hx
  | cons y ys =>
    simp only [maxT, Option.some.injEq] at h
    rw [← h]
    rcases List.mem_cons.mp hx with h1 | h1
    · subst h1; exact foldl_max_self ys x
    · exact foldl_max_le_of_mem ys y x h1

theorem maxT_of_ne_nil {xs : List ℤ} (h : xs ≠ []) : ∃ m, maxT xs = some m := by
  cases xs with
  | nil => exact absurd rfl h
  | cons x xs => exact ⟨_, rfl⟩

theorem hwm_mem {s : String} {l : List Rec} {m : ℤ} (h : hwm s l = some m) :
    ∃ r ∈ l, r.symbol = s ∧ r.time = m := by
  have hm := maxT_mem h
  rcases List.mem_map.mp hm with ⟨r, hr, ht⟩
  rcases mem_filterSym.mp hr with ⟨hrl, hrs⟩
  exact ⟨r, hrl, hrs, ht⟩

theorem le_hwm {s : String} {l : List Rec} {m : ℤ} {r : Rec}
    (hr : r ∈ l) (hs : r.symbol = s) (h : hwm s l = some m) : r.time ≤ m :=
  le_maxT (List.mem_map.mpr ⟨r, mem_filterSym.mpr ⟨hr, hs⟩, rfl⟩) h

/-! ### Sortedness transfer -/

theorem recLE_time {a b : Rec} (h : recLE a b) (hs : a.symbol = b.symbol) :
    a.time ≤ b.time := by
  unfold recLE keyLE keyOf at h
  rcases h with h | ⟨_, ht⟩
  · exfalso
    rw [hs] at h
    exact symLt_irrefl b.symbol h
  · exact ht

theorem filterSym_time_sorted {l : List Rec} (hl : KeySorted l) (s : String) :
    List.Pairwise (fun a b : Rec => a.time ≤ b.time) (filterSym s l) := by
  have h2 := List.Pairwise.filter (R := recLE) (fun r => r.symbol == s) hl
  refine List.Pairwise.imp_of_mem ?_ h2
  intro a b ha hb hab
  have has : a.symbol = s := (mem_filterSym.mp ha).2
  have hbs : b.symbol = s := (mem_filterSym.mp hb).2
  exact recLE_time hab (has.trans hbs.symm)

theorem le_getLast_time {l : List Rec}
    (hl : List.Pairwise (fun a b : Rec => a.time ≤ b.time) l) (h : l ≠ []) :
    ∀ r ∈ l, r.time ≤ (l.getLast h).time := by
  induction l with
  | nil => exact absurd rfl h
  | cons x xs ih =>
    intro r hr
    rcases List.mem_cons.mp hr with h1 | h1
    · subst h1
      rcases eq_or_ne xs [] with he | he
      · subst he
        simp [List.getLast]
      · rw [List.getLast_cons he]
        exact (List.pairwise_cons.mp hl).1 _ (List.getLast_mem he)
    · rcases eq_or_ne xs [] with he | he
      · subst he; cases h1
      · rw [List.getLast_cons he]
        exact ih (List.pairwise_cons.mp hl).2 he r h1

/-! ### NodupKeys transfer -/

theorem NodupKeys_sortIdx {l : List Rec} (h : NodupKeys l) : NodupKeys (sortIdx l) :=
  ((sortIdx_perm l).map keyOf).nodup_iff.mpr h

theorem NodupKeys_sublist {l₁ l₂ : List Rec} (hs : l₁.Sublist l₂) (h : NodupKeys l₂) :
    NodupKeys l₁ :=
  (hs.map keyOf).nodup h

theorem NodupKeys_clipWindow {w : ℕ} {l : List Rec} (h : NodupKeys l) :
    NodupKeys (clipWindow w l) :=
  NodupKeys_sublist (clipWindow_sublist w l) h

theorem filterSym_append (s : String) (l₁ l₂ : List Rec) :
    filterSym s (l₁ ++ l₂) = filterSym s l₁ ++ filterSym s l₂ :=
  List.filter_append l₁ l₂

theorem filterKey_append (k : Key) (l₁ l₂ : List Rec) :
    filterKey k (l₁ ++ l₂) = filterKey k l₁ ++ filterKey k l₂ :=
  List.filter_append l₁ l₂

/-! ### `fetchSince` and `sinceMap` facts -/

/-- Every row returned by the diff fetch was matched against a since-map entry
that passed the `_SYM_RE` filter: its symbol is regex-clean and its time is
strictly past that entry's since time. -/
theorem fetchSince_bound {store : List Rec} {sm : List (String × ℤ)} {r : Rec}
    (h : r ∈ fetchSince store sm) :
    symOk r.symbol = true ∧ ∃ p ∈ sm, p.1 = r.symbol ∧ p.2 < r.time := by
  unfold fetchSince at h
  have h1 : r ∈ store.filter (rowMatches (sm.filter (fun p => symOk p.1))) :=
    mem_sortIdx.mp (mem_of_mem_dedupKeepLast h)
  have h2 : rowMatches (sm.filter (fun p => symOk p.1)) r = true :=
    (List.mem_filter.mp h1).2
  rcases List.any_eq_true.mp h2 with ⟨p, hp, hcond⟩
  rcases List.mem_filter.mp hp with ⟨hpsm, hpok⟩
  rw [Bool.and_eq_true] at hcond
  have hps : p.1 = r.symbol := beq_iff_eq.mp hcond.1
  have hpt : p.2 < r.time := of_decide_eq_true hcond.2
  exact ⟨hps ▸ hpok, p, hpsm, hps, hpt⟩

/-- A since-map entry for a symbol is exactly that symbol's high-water mark. -/
theorem sinceMap_hwm {current : List Rec} {s : String} {t : ℤ}
    (h : (s, t) ∈ sinceMap current) : hwm s current = some t := by
  unfold sinceMap at h
  rcases List.mem_filterMap.mp h with ⟨s', _, hmap⟩
  rcases Option.map_eq_some'.mp hmap with ⟨t', ht', heq⟩
  rw [Prod.mk.injEq] at heq
  obtain ⟨rfl, rfl⟩ := heq
  exact ht'

/-! ## Claim theorems: C4, C5, C9, C10 -/

theorem countSym_refreshTable_le (w : ℕ) (store current : List Rec) (s : String) :
    countSym s (refreshTable w store current) ≤ w := by
  unfold refreshTable
  split
  · exact countSym_clipWindow_le w s _
  · split
    · exact countSym_clipWindow_le w s _
    · exact countSym_clipWindow_le w s _

theorem NodupKeys_refreshTable {w : ℕ} {store current : List Rec}
    (hstore : NodupKeys store) (hcur : NodupKeys current) :
    NodupKeys (refreshTable w store current) := by
  unfold refreshTable fetchTail
  split
  · exact NodupKeys_clipWindow (NodupKeys_clipWindow (NodupKeys_sortIdx hstore))
  · split
    · exact NodupKeys_clipWindow hcur
    · exact NodupKeys_clipWindow (NodupKeys_dedupKeepLast _)

/-- C4: after a warm, a refresh, or a snapshot prime, the cache holds at most
`window` rows per symbol and at most one row per `(symbol, time)` key (given
key-uniqueness of the durable table — its primary key — and of the prior cache
table and snapshot); and a key present in both the current table and the
freshly fetched diff keeps the freshly merged row. -/
theorem cache_window_dedup_invariant (w : ℕ) (store current df : List Rec)
    (s : String) (rk : Rec)
    (hstore : NodupKeys store) (hcur : NodupKeys current) (hdf : NodupKeys df) :
    (countSym s (warmTable w store) ≤ w ∧ NodupKeys (warmTable w store))
    ∧ (countSym s (refreshTable w store current) ≤ w
        ∧ NodupKeys (refreshTable w store current))
    ∧ (countSym s (primeTable w df) ≤ w ∧ NodupKeys (primeTable w df))
    ∧ ((∃ rc ∈ current, keyOf rc = keyOf rk) →
        rk ∈ fetchSince store (sinceMap current) →
        ∀ r ∈ refreshTable w store current, keyOf r = keyOf rk → r = rk) := by
  refine ⟨⟨?_, ?_⟩, ⟨countSym_refreshTable_le w store current s,
    NodupKeys_refreshTable hstore hcur⟩, ⟨?_, ?_⟩, ?_⟩
  · show countSym s (clipWindow w (fetchTail store w)) ≤ w
    exact countSym_clipWindow_le w s _
  · show NodupKeys (clipWindow w (fetchTail store w))
    unfold fetchTail
    exact NodupKeys_clipWindow (NodupKeys_clipWindow (NodupKeys_sortIdx hstore))
  · show countSym s (clipWindow w (sortIdx df)) ≤ w
    exact countSym_clipWindow_le w s _
  · show NodupKeys (clipWindow w (sortIdx df))
    exact NodupKeys_clipWindow (NodupKeys_sortIdx hdf)
  · intro hex hrk r hr hkr
    have hcne : current ≠ [] := by
      rcases hex with ⟨rc, hrc, _⟩
      intro he
      rw [he] at hrc
      cases hrc
    have hine : fetchSince store (sinceMap current) ≠ [] := by
      intro he
      rw [he] at hrk
      cases hrk
    unfold refreshTable at hr
    rw [if_neg hcne, if_neg hine] at hr
    have hrd : r ∈ dedupKeepLast (sortIdx (current ++ fetchSince store (sinceMap current))) :=
      List.Sublist.mem hr (clipWindow_sublist w _)
    have hrf : r ∈ filterKey (keyOf rk)
        (dedupKeepLast (sortIdx (current ++ fetchSince store (sinceMap current)))) :=
      mem_filterKey.mpr ⟨hrd, hkr⟩
    rw [filterKey_dedupKeepLast, filterKey_sortIdx, filterKey_append] at hrf
    have hrkmem : rk ∈ filterKey (keyOf rk) (fetchSince store (sinceMap current)) :=
      mem_filterKey.mpr ⟨hrk, rfl⟩
    have h1 : 1 ≤ (filterKey (keyOf rk) (fetchSince store (sinceMap current))).length := by
      apply List.length_pos.mpr
      intro he
      rw [he] at hrkmem
      cases hrkmem
    rw [tailN_append_of_le _ h1] at hrf
    have hrincr : r ∈ fetchSince store (sinceMap current) :=
      (mem_filterKey.mp (List.Sublist.mem hrf (tailN_sublist 1 _))).1
    have hnd : NodupKeys (fetchSince store (sinceMap current)) := by
      unfold fetchSince
      exact NodupKeys_dedupKeepLast _
    exact List.inj_on_of_nodup_map hnd hrincr hrk hkr

/-- Witness for C4 at a concrete one-row store/cache/snapshot. -/
theorem cache_window_dedup_invariant_witness :
    countSym "BTCUSDT" (warmTable 2 [recA]) ≤ 2 :=
  (cache_window_dedup_invariant 2 [recA] [recA] [recA] "BTCUSDT" recA
    (by decide) (by decide) (by decide)).1.1

/-- C5: for every symbol present in the cache before a `refresh`, the symbol's
maximum cached time does not decrease, and every row of the refreshed table for
that symbol either was already cached or is strictly newer than the symbol's
prior high-water mark. (`1 ≤ w` because a zero-row window clips every row away;
the prior table is key-sorted, as every cache table is.) -/
theorem refresh_monotone_hwm (w : ℕ) (store current : List Rec) (s : String) (m : ℤ)
    (hw : 1 ≤ w) (hsorted : KeySorted current) (hm : hwm s current = some m) :
    (∃ m', hwm s (refreshTable w store current) = some m' ∧ m ≤ m')
    ∧ ∀ r ∈ refreshTable w store current, r.symbol = s → r ∈ current ∨ m < r.time := by
  have hcne : current ≠ [] := by
    rcases hwm_mem hm with ⟨r0, hr0, _⟩
    intro he
    rw [he] at hr0
    cases hr0
  unfold refreshTable
  rw [if_neg hcne]
  by_cases hie : fetchSince store (sinceMap current) = []
  · rw [if_pos hie]
    constructor
    · have hsort := filterSym_time_sorted hsorted s
      have hfne : filterSym s current ≠ [] := by
        rcases hwm_mem hm with ⟨r0, hr0, hr0s, _⟩
        intro he
        have hmem := mem_filterSym.mpr ⟨hr0, hr0s⟩
        rw [he] at hmem
        cases hmem
      have hglmem : (filterSym s current).getLast hfne ∈ filterSym s (clipWindow w current) := by
        rw [filterSym_clipWindow]
        exact getLast_mem_tailN hw hfne
      have hne2 : (filterSym s (clipWindow w current)).map Rec.time ≠ [] := by
        intro he
        rw [List.map_eq_nil_iff] at he
        rw [he] at hglmem
        cases hglmem
      obtain ⟨m', hm'⟩ := maxT_of_ne_nil hne2
      refine ⟨m', hm', ?_⟩
      have h1 : m ≤ ((filterSym s current).getLast hfne).time := by
        rcases hwm_mem hm with ⟨rm, hrm, hrms, hrmt⟩
        have hrmL : rm ∈ filterSym s current := mem_filterSym.mpr ⟨hrm, hrms⟩
        have h2 := le_getLast_time hsort hfne rm hrmL
        omega
      have h2 : ((filterSym s current).getLast hfne).time ≤ m' :=
        le_maxT (List.mem_map.mpr ⟨_, hglmem, rfl⟩) hm'
      omega
    · intro r hr _
      exact Or.inl (List.Sublist.mem hr (clipWindow_sublist w current))
  · rw [if_neg hie]
    rcases hwm_mem hm with ⟨rm, hrm, hrms, hrmt⟩
    have hrmM : rm ∈ sortIdx (current ++ fetchSince store (sinceMap current)) :=
      mem_sortIdx.mpr (List.mem_append.mpr (Or.inl hrm))
    have hkfne : filterKey (keyOf rm) (sortIdx (current ++ fetchSince store (sinceMap current))) ≠ [] := by
      intro he
      have hx := List.filter_eq_nil_iff.mp he rm hrmM
      simp at hx
    have htne : tailN 1 (filterKey (keyOf rm)
        (sortIdx (current ++ fetchSince store (sinceMap current)))) ≠ [] :=
      tailN_ne_nil (le_refl 1) hkfne
    obtain ⟨r', hr'⟩ : ∃ r', r' ∈ filterKey (keyOf rm)
        (dedupKeepLast (sortIdx (current ++ fetchSince store (sinceMap current)))) := by
      rw [filterKey_dedupKeepLast]
      exact List.exists_mem_of_ne_nil _ htne
    have hr'D : r' ∈ dedupKeepLast (sortIdx (current ++ fetchSince store (sinceMap current))) :=
      (mem_filterKey.mp hr').1
    have hr'k : keyOf r' = keyOf rm := (mem_filterKey.mp hr').2
    have hr's : r'.symbol = s := by
      have hfst : r'.symbol = rm.symbol := congrArg Prod.fst hr'k
      rw [hfst, hrms]
    have hr't : r'.time = m := by
      have hsnd : r'.time = rm.time := congrArg Prod.snd hr'k
      rw [hsnd, hrmt]
    have hDsorted : KeySorted (dedupKeepLast (sortIdx (current ++ fetchSince store (sinceMap current)))) :=
      List.Pairwise.sublist (dedupKeepLast_sublist _) (sortIdx_sorted _)
    have hsortD := filterSym_time_sorted hDsorted s
    have hr'mem : r' ∈ filterSym s (dedupKeepLast (sortIdx (current ++ fetchSince store (sinceMap current)))) :=
      mem_filterSym.mpr ⟨hr'D, hr's⟩
    have hfDne : filterSym s (dedupKeepLast (sortIdx (current ++ fetchSince store (sinceMap current)))) ≠ [] := by
      intro he
      rw [he] at hr'mem
      cases hr'mem
    have hgl_time : m ≤ ((filterSym s (dedupKeepLast (sortIdx (current ++ fetchSince store (sinceMap current))))).getLast hfDne).time := by
      have h2 := le_getLast_time hsortD hfDne r' hr'mem
      omega
    have hglmem : (filterSym s (dedupKeepLast (sortIdx (current ++ fetchSince store (sinceMap current))))).getLast hfDne
        ∈ filterSym s (clipWindow w (dedupKeepLast (sortIdx (current ++ fetchSince store (sinceMap current))))) := by
      rw [filterSym_clipWindow]
      exact getLast_mem_tailN hw hfDne
    constructor
    · have hne2 : (filterSym s (clipWindow w (dedupKeepLast (sortIdx (current ++ fetchSince store (sinceMap current)))))).map Rec.time ≠ [] := by
        intro he
        rw [List.map_eq_nil_iff] at he
        rw [he] at hglmem
        cases hglmem
      obtain ⟨m', hm'⟩ := maxT_of_ne_nil hne2
      refine ⟨m', hm', ?_⟩
      have h2 := le_maxT (List.mem_map.mpr ⟨_, hglmem, rfl⟩) hm'
      omega
    · intro r hr hrsym
      have hrD : r ∈ dedupKeepLast (sortIdx (current ++ fetchSince store (sinceMap current))) :=
        List.Sublist.mem hr (clipWindow_sublist w _)
      have hrM : r ∈ sortIdx (current ++ fetchSince store (sinceMap current)) :=
        List.Sublist.mem hrD (dedupKeepLast_sublist _)
      rcases List.mem_append.mp (mem_sortIdx.mp hrM) with hrc | hri
      · exact Or.inl hrc
      · right
        obtain ⟨_, p, hpsm, hps, hpt⟩ := fetchSince_bound hri
        have hp1 : p.1 = s := hps.trans hrsym
        have hp' : (s, p.2) ∈ sinceMap current := by
          rw [← hp1]
          simpa using hpsm
        have hhw : hwm s current = some p.2 := sinceMap_hwm hp'
        rw [hm] at hhw
        have : m = p.2 := Option.some.inj hhw
        omega

/-- Witness for C5 at a concrete one-row cache. -/
theorem refresh_monotone_hwm_witness :
    ∃ m', hwm "BTCUSDT" (refreshTable 1 [] [recA]) = some m' ∧ (1 : ℤ) ≤ m' :=
  (refresh_monotone_hwm 1 [] [recA] "BTCUSDT" 1 (by decide) (by decide) (by decide)).1

/-- C9: for a non-empty cache table within its window bound (as every saved
cache table is), saving a snapshot and priming a fresh cache from it (same
window) reproduces exactly the same set of rows. -/
theorem snapshot_roundtrip (w : ℕ) (df : List Rec) (hne : df ≠ [])
    (hcnt : ∀ s, countSym s df ≤ w) :
    ∀ r : Rec, r ∈ primeTable w df ↔ r ∈ df := by
  intro r
  constructor
  · intro h
    exact mem_sortIdx.mp (List.Sublist.mem h (clipWindow_sublist w _))
  · intro h
    have h1 : r ∈ sortIdx df := mem_sortIdx.mpr h
    have h2 : r ∈ filterSym r.symbol (sortIdx df) := mem_filterSym.mpr ⟨h1, rfl⟩
    have hc : (filterSym r.symbol (sortIdx df)).length ≤ w := by
      have hp : (filterSym r.symbol (sortIdx df)).Perm (filterSym r.symbol df) :=
        (sortIdx_perm df).filter _
      rw [hp.length_eq]
      exact hcnt r.symbol
    have h3 : filterSym r.symbol (clipWindow w (sortIdx df)) =
        filterSym r.symbol (sortIdx df) := by
      rw [filterSym_clipWindow, tailN_of_length_le hc]
    have h4 : r ∈ filterSym r.symbol (clipWindow w (sortIdx df)) := by
      rw [h3]
      exact h2
    exact (mem_filterSym.mp h4).1

/-- Witness for C9 at a concrete one-row table. -/
theorem snapshot_roundtrip_witness : recA ∈ primeTable 1 [recA] :=
  (snapshot_roundtrip 1 [recA] (by simp) (fun _ => List.length_filter_le _ _) recA).mpr
    (by simp)

/-- C10: the diff fetch silently drops since-map entries whose symbol fails
`_SYM_RE` (so every fetched row's symbol matches the pattern), and for a cached
symbol failing the pattern a refresh leaves that symbol's cached rows exactly
unchanged, no matter what newer rows the durable store holds. -/
theorem regex_drops_symbols (w : ℕ) (store current : List Rec) (s : String)
    (sm : List (String × ℤ)) (r : Rec) :
    (r ∈ fetchSince store sm → symOk r.symbol = true)
    ∧ (symOk s = false → NodupKeys current → KeySorted current →
        countSym s current ≤ w → filterSym s current ≠ [] →
        filterSym s (refreshTable w store current) = filterSym s current) := by
  constructor
  · intro h
    exact (fetchSince_bound h).1
  · intro hbad hnk hsort hcnt hfne
    have hcne : current ≠ [] := by
      intro he
      rw [he] at hfne
      exact hfne rfl
    unfold refreshTable
    rw [if_neg hcne]
    by_cases hie : fetchSince store (sinceMap current) = []
    · rw [if_pos hie, filterSym_clipWindow, tailN_of_length_le hcnt]
    · rw [if_neg hie]
      have hincr_s : filterSym s (fetchSince store (sinceMap current)) = [] := by
        unfold filterSym
        apply List.filter_eq_nil_iff.mpr
        intro x hx hbx
        have hxs : x.symbol = s := beq_iff_eq.mp hbx
        have hok := (fetchSince_bound hx).1
        rw [hxs, hbad] at hok
        cases hok
      have hMperm : (filterSym s (sortIdx (current ++ fetchSince store (sinceMap current)))).Perm
          (filterSym s current) := by
        have h1 : (filterSym s (sortIdx (current ++ fetchSince store (sinceMap current)))).Perm
            (filterSym s (current ++ fetchSince store (sinceMap current))) :=
          (sortIdx_perm _).filter _
        have h2 : filterSym s (current ++ fetchSince store (sinceMap current)) =
            filterSym s current := by
          rw [filterSym_append, hincr_s, List.append_nil]
        rw [h2] at h1
        exact h1
      have hndcur : NodupKeys (filterSym s current) :=
        NodupKeys_sublist (List.filter_sublist _) hnk
      have hkeysnd : (List.map keyOf (filterSym s
          (sortIdx (current ++ fetchSince store (sinceMap current))))).Nodup :=
        ((hMperm.map keyOf).nodup_iff).mpr hndcur
      have hdedup : filterSym s (dedupKeepLast (sortIdx (current ++ fetchSince store (sinceMap current)))) =
          filterSym s (sortIdx (current ++ fetchSince store (sinceMap current))) :=
        filterSym_dedupKeepLast _ hkeysnd
      have htimes_nd : (List.map Rec.time (filterSym s current)).Nodup := by
        have hginj := List.inj_on_of_nodup_map hndcur
        apply List.Nodup.map_on ?_ (List.Nodup.of_map keyOf hndcur)
        intro x hx y hy ht
        apply hginj hx hy
        have hxs := (mem_filterSym.mp hx).2
        have hys := (mem_filterSym.mp hy).2
        unfold keyOf
        rw [hxs, hys, ht]
      have hMtimes_nd : (List.map Rec.time (filterSym s
          (sortIdx (current ++ fetchSince store (sinceMap current))))).Nodup :=
        ((hMperm.map Rec.time).nodup_iff).mpr htimes_nd
      haveI : IsAntisymm Rec (fun a b : Rec => a.time < b.time) :=
        ⟨fun a b h1 h2 => absurd (lt_trans h1 h2) (lt_irrefl _)⟩
      have hstrictM : List.Pairwise (fun a b : Rec => a.time < b.time)
          (filterSym s (sortIdx (current ++ fetchSince store (sinceMap current)))) := by
        have hle : List.Pairwise (fun a b : Rec => a.time ≤ b.time)
            (filterSym s (sortIdx (current ++ fetchSince store (sinceMap current)))) :=
          filterSym_time_sorted (sortIdx_sorted _) s
        have hne' := List.pairwise_map.mp hMtimes_nd
        exact (hle.and hne').imp (fun h => lt_of_le_of_ne h.1 h.2)
      have hstrictC : List.Pairwise (fun a b : Rec => a.time < b.time)
          (filterSym s current) := by
        have hle := filterSym_time_sorted hsort s
        have hne' := List.pairwise_map.mp htimes_nd
        exact (hle.and hne').imp (fun h => lt_of_le_of_ne h.1 h.2)
      have hMeq : filterSym s (sortIdx (current ++ fetchSince store (sinceMap current))) =
          filterSym s current :=
        List.eq_of_perm_of_sorted hMperm hstrictM hstrictC
      rw [filterSym_clipWindow, hdedup, hMeq, tailN_of_length_le hcnt]

/-- Witness for C10 at a concrete store and a cache holding a lowercase
(regex-failing) symbol. -/
theorem regex_drops_symbols_witness :
    symOk recA.symbol = true
    ∧ filterSym "bad" (refreshTable 1 [recA] [recBad]) = filterSym "bad" [recBad] :=
  ⟨(regex_drops_symbols 1 [recA] [recBad] "bad" [("BTCUSDT", 0)] recA).1 (by decide),
   (regex_drops_symbols 1 [recA] [recBad] "bad" [("BTCUSDT", 0)] recA).2
     (by decide) (by decide) (by decide) (by decide) (by decide)⟩
